import Mathlib

/-!
Shallow embedding of the gym-energyplus wrapper stack
(`src/gym_energyplus/wrappers.py`) and proofs of the spec claims.

Machine floats are modelled by exact rationals (`ℚ`); numpy / torch
vectors of a fixed length are modelled as `Fin n → ℚ`; Python `None`
and raised exceptions are modelled by `Option`.
-/

/-! ## Observation normalizer (`EnergyPlusObsWrapper`) -/

/-- `self.obs_max = np.array([50., 50., 50., 1e5, 1e5])`. -/
def obs_max : Fin 5 → ℚ := ![50, 50, 50, 100000, 100000]

/-- `reverse_observation(normalized_obs)`:
`obs = normalized_obs * self.obs_max`; `total_power = obs[3] + obs[4]`;
`obs = np.insert(obs, 3, total_power)`. -/
def reverse_observation (normalized_obs : Fin 5 → ℚ) : Fin 6 → ℚ :=
  let obs : Fin 5 → ℚ := fun i => normalized_obs i * obs_max i
  let total_power : ℚ := obs 3 + obs 4
  ![obs 0, obs 1, obs 2, total_power, obs 3, obs 4]

/-- `observation(observation)`:
`temperature_obs = observation[0:3]`; `power_obs = observation[4:]`;
`obs = np.concatenate((temperature_obs, power_obs))`; `return obs / self.obs_max`. -/
def observation (raw : Fin 6 → ℚ) : Fin 5 → ℚ :=
  let concat : Fin 5 → ℚ := ![raw 0, raw 1, raw 2, raw 4, raw 5]
  fun i => concat i / obs_max i

/-- `reverse_observation_batch_tensor(normalized_obs)` on a batch of `B` rows:
`obs = normalized_obs * self.obs_max_tensor` (broadcast over rows);
`total_power = obs[:, 3:4] + obs[:, 4:5]`;
`obs = torch.cat((obs[:, :3], total_power, obs[:, 3:]), dim=-1)`. -/
def reverse_observation_batch_tensor {B : ℕ} (normalized_obs : Fin B → Fin 5 → ℚ) :
    Fin B → Fin 6 → ℚ :=
  let obs : Fin B → Fin 5 → ℚ := fun r c => normalized_obs r c * obs_max c
  let total_power : Fin B → ℚ := fun r => obs r 3 + obs r 4
  fun r => ![obs r 0, obs r 1, obs r 2, total_power r, obs r 3, obs r 4]

/-! ## Action quantizer (`EnergyPlusDiscreteActionWrapper`) -/

/-- `self.action_table = np.linspace(-1., 1., num_levels)`: `num_levels` evenly
spaced points from `-1` to `1`; entry `i` is `-1 + 2 * i / (num_levels - 1)`
(for `num_levels = 1` numpy yields the single point `-1`, matched here because
`ℚ` division by zero is zero). -/
def action_table (num_levels : ℕ) : List ℚ :=
  (List.range num_levels).map fun i : ℕ => -1 + 2 * (i : ℚ) / ((num_levels : ℚ) - 1)

/-- The digit loop of `action`: `for _ in range(dims): remainder = action % num_levels;
binary_action.append(remainder); action = (action - remainder) // num_levels`
(for naturals `(x - x % n) / n = x / n`). Least-significant digit first. -/
def binary_action (num_levels : ℕ) : ℕ → ℕ → List ℕ
  | 0, _ => []
  | dims + 1, x => x % num_levels :: binary_action num_levels dims (x / num_levels)

/-- `action(action)` of the discrete wrapper: asserts
`self.action_space.contains(action)` (i.e. `action < num_levels ** dims`),
decomposes the index into `binary_action` digits, then indexes
`self.action_table` with them. -/
def action (num_levels dims x : ℕ) : Option (List ℚ) :=
  if x < num_levels ^ dims then
    some ((binary_action num_levels dims x).map fun k => (action_table num_levels).getD k 0)
  else
    none

/-- `reverse_action(action)` of the discrete wrapper: the method body is
`pass`, so the call returns `None` for every input. -/
def reverse_action (_v : List ℚ) : Option ℕ := none

/-! ## The inner environment interface

An opaque-to-the-wrappers gym environment: a state type `σ`, an observation
type `Obs`, an info type `ι`, an action type `α`, with
`step(action) -> (obs, reward, done, info)` and `reset() -> obs`. -/

/-- Result of one inner `env.step(action)` call: successor env state plus the
returned `(obs, reward, done, info)` tuple. -/
structure InnerStepRes (σ Obs ι : Type) where
  st : σ
  obs : Obs
  reward : ℚ
  done : Bool
  info : ι

/-- A deterministic inner gym environment. -/
structure InnerEnv (σ Obs ι α : Type) where
  stepFn : σ → α → InnerStepRes σ Obs ι
  resetFn : σ → σ × Obs

/-! ## Episode segmenter (`EnergyPlusWrapper`) -/

/-- The mutable fields of an `EnergyPlusWrapper` instance.  In `__init__`,
`true_done = True` and `last_obs = None`; `current_steps` is only assigned in
`reset`, so it is `none` (attribute unset) on a fresh instance. -/
structure EPState (σ Obs : Type) where
  inner : σ
  max_steps : ℕ
  true_done : Bool
  last_obs : Option Obs
  current_steps : Option ℕ

/-- `self.action_space.contains(action)` for
`Box(low=-1., high=1., shape=(d,))`: every component lies in `[-1, 1]`. -/
def inBounds {d : ℕ} (a : Fin d → ℚ) : Prop :=
  ∀ i, -1 ≤ a i ∧ a i ≤ 1

instance {d : ℕ} (a : Fin d → ℚ) : Decidable (inBounds a) := by
  unfold inBounds; infer_instance

/-- The `(obs, reward, done, info)` tuple returned by `EnergyPlusWrapper.step`;
`info` is the inner info dict with the `true_done` key split out. -/
structure EPOut (Obs ι : Type) where
  obs : Obs
  reward : ℚ
  done : Bool
  info : ι
  true_done : Bool

/-- `EnergyPlusWrapper.step(action)`.  Returns the successor wrapper state and
`some` output, or `none` when the Python code raises (failed bounds assert,
`current_steps` unset before `reset`, or the `ValueError` when
`current_steps` passes `max_steps`).  Mirrors the source order: the assert
fires before the inner step; `last_obs` is stored before the `done` test;
`current_steps` is incremented only on the not-done path. -/
def EnergyPlusWrapper_step {σ Obs ι : Type} {d : ℕ}
    (E : InnerEnv σ Obs ι (Fin d → ℚ)) (s : EPState σ Obs) (a : Fin d → ℚ) :
    EPState σ Obs × Option (EPOut Obs ι) :=
  if inBounds a then
    let r := E.stepFn s.inner a
    let s1 : EPState σ Obs := { s with inner := r.st, last_obs := some r.obs }
    if r.done then
      ({ s1 with true_done := true }, some ⟨r.obs, r.reward, r.done, r.info, true⟩)
    else
      match s1.current_steps with
      | none => (s1, none)
      | some c =>
        let s2 : EPState σ Obs := { s1 with current_steps := some (c + 1) }
        if c + 1 = s2.max_steps then
          (s2, some ⟨r.obs, r.reward, true, r.info, false⟩)
        else if c + 1 < s2.max_steps then
          (s2, some ⟨r.obs, r.reward, r.done, r.info, false⟩)
        else
          (s2, none)
  else (s, none)

/-- `EnergyPlusWrapper.reset()`: a real inner reset happens only when
`true_done` is set; `current_steps` is zeroed either way and `get_obs()`
(i.e. `last_obs`) is returned. -/
def EnergyPlusWrapper_reset {σ Obs ι α : Type}
    (E : InnerEnv σ Obs ι α) (s : EPState σ Obs) : EPState σ Obs × Option Obs :=
  if s.true_done then
    let r := E.resetFn s.inner
    let s' : EPState σ Obs :=
      { s with inner := r.1, last_obs := some r.2, true_done := false, current_steps := some 0 }
    (s', s'.last_obs)
  else
    let s' : EPState σ Obs := { s with current_steps := some 0 }
    (s', s'.last_obs)

/-- `EnergyPlusWrapper.__init__(env, max_steps)`: asserts `max_steps > 0`,
then sets `true_done = True`, `last_obs = None`, leaving `current_steps`
unset. -/
def EnergyPlusWrapper_init {σ Obs : Type} (σ0 : σ) (max_steps : ℕ) :
    Option (EPState σ Obs) :=
  if 0 < max_steps then some ⟨σ0, max_steps, true, none, none⟩ else none

/-- Fold `EnergyPlusWrapper_step` over a list of actions, collecting each
call's output. -/
def EnergyPlusWrapper_run {σ Obs ι : Type} {d : ℕ}
    (E : InnerEnv σ Obs ι (Fin d → ℚ)) :
    EPState σ Obs → List (Fin d → ℚ) → EPState σ Obs × List (Option (EPOut Obs ι))
  | s, [] => (s, [])
  | s, a :: as =>
    let p := EnergyPlusWrapper_step E s a
    let q := EnergyPlusWrapper_run E p.1 as
    (q.1, p.2 :: q.2)

/-! ## Control-step aggregator (`RepeatAction`) -/

/-- The mutable fields of a `RepeatAction` instance: `last_obs = None` at
construction, `self.obs = []` and `self.reward = []` are the window buffers. -/
structure RAState (σ : Type) (m : ℕ) where
  inner : σ
  last_obs : Option (Fin m → ℚ)
  obs : List (Fin m → ℚ)
  reward : List ℚ

/-- `np.array_equal(o1[:3], o2[:3])`: the first three fields agree
(fields past the length are absent from both slices). -/
def first3Eq {m : ℕ} (o1 o2 : Fin m → ℚ) : Prop :=
  ∀ i : Fin m, (i : ℕ) < 3 → o1 i = o2 i

instance {m : ℕ} (o1 o2 : Fin m → ℚ) : Decidable (first3Eq o1 o2) := by
  unfold first3Eq; infer_instance

/-- `np.mean(obs_list, axis=0)`: pointwise arithmetic mean of a list of
vectors. -/
def vecMean {m : ℕ} (l : List (Fin m → ℚ)) : Fin m → ℚ :=
  fun j => (l.map fun o => o j).sum / l.length

/-- `np.mean(reward_list)`: arithmetic mean of a list of scalars. -/
def listMean (l : List ℚ) : ℚ := l.sum / l.length

/-- The `while np.array_equal(obs[:3], self.last_obs[:3]) and (not done)`
loop of `RepeatAction.step`, with explicit fuel (the Python loop has no
bound; `none` models running out of fuel).  Arguments after the fuel are the
current inner env state, the latest `(obs, reward, done, info)` and the two
accumulated window buffers.  On exit the window is averaged and cleared and
`last_obs` is set to the latest observation. -/
def RepeatAction_loop {σ ι α : Type} {m : ℕ}
    (E : InnerEnv σ (Fin m → ℚ) ι α) (a : α) (b : Fin m → ℚ) :
    ℕ → σ → (Fin m → ℚ) → ℚ → Bool → ι → List (Fin m → ℚ) → List ℚ →
    Option (RAState σ m × ((Fin m → ℚ) × ℚ × Bool × ι))
  | 0, st, obs, _reward, done, _info, _obsAcc, _rewAcc =>
    if first3Eq obs b ∧ done = false then
      none
    else
      some (⟨st, some obs, [], []⟩, (vecMean _obsAcc, listMean _rewAcc, done, _info))
  | fuel + 1, st, obs, _reward, done, info, obsAcc, rewAcc =>
    if first3Eq obs b ∧ done = false then
      let r := E.stepFn st a
      RepeatAction_loop E a b fuel r.st r.obs r.reward r.done r.info
        (obsAcc ++ [r.obs]) (rewAcc ++ [r.reward])
    else
      some (⟨st, some obs, [], []⟩, (vecMean obsAcc, listMean rewAcc, done, info))

/-- `RepeatAction.step(action)`: one unconditional inner step, append to the
window, then the repeat loop.  `none` when `last_obs` is `None` (Python
`TypeError` slicing `None`) or the fuel runs out. -/
def RepeatAction_step {σ ι α : Type} {m : ℕ}
    (E : InnerEnv σ (Fin m → ℚ) ι α) (fuel : ℕ) (s : RAState σ m) (a : α) :
    Option (RAState σ m × ((Fin m → ℚ) × ℚ × Bool × ι)) :=
  match s.last_obs with
  | none => none
  | some b =>
    let r := E.stepFn s.inner a
    RepeatAction_loop E a b fuel r.st r.obs r.reward r.done r.info
      (s.obs ++ [r.obs]) (s.reward ++ [r.reward])

/-! ## Inner-step trajectories (for stating the aggregator claim) -/

/-- Inner env state after `n` consecutive `step` calls with the same action. -/
def traj {σ Obs ι α : Type} (E : InnerEnv σ Obs ι α) (a : α) (σ0 : σ) : ℕ → σ
  | 0 => σ0
  | n + 1 => (E.stepFn (traj E a σ0 n) a).st

/-- Observation returned by the `(n+1)`-st consecutive inner step call. -/
def subObs {σ Obs ι α : Type} (E : InnerEnv σ Obs ι α) (a : α) (σ0 : σ) (n : ℕ) : Obs :=
  (E.stepFn (traj E a σ0 n) a).obs

/-- Reward returned by the `(n+1)`-st consecutive inner step call. -/
def subRew {σ Obs ι α : Type} (E : InnerEnv σ Obs ι α) (a : α) (σ0 : σ) (n : ℕ) : ℚ :=
  (E.stepFn (traj E a σ0 n) a).reward

/-- Done flag returned by the `(n+1)`-st consecutive inner step call. -/
def subDone {σ Obs ι α : Type} (E : InnerEnv σ Obs ι α) (a : α) (σ0 : σ) (n : ℕ) : Bool :=
  (E.stepFn (traj E a σ0 n) a).done

/-- Info returned by the `(n+1)`-st consecutive inner step call. -/
def subInfo {σ Obs ι α : Type} (E : InnerEnv σ Obs ι α) (a : α) (σ0 : σ) (n : ℕ) : ι :=
  (E.stepFn (traj E a σ0 n) a).info

/-! ## Concrete environments used to instantiate the theorems -/

/-- A counting inner environment that never terminates: the state counts
steps, each step returns the old count as observation with reward `0`. -/
def constEnv : InnerEnv ℕ ℕ Unit (Fin 1 → ℚ) where
  stepFn := fun n _ => ⟨n + 1, n, 0, false, ()⟩
  resetFn := fun n => (n + 7, 42)

/-- An inner environment that terminates on every step. -/
def doneEnv : InnerEnv ℕ ℕ Unit (Fin 1 → ℚ) where
  stepFn := fun n _ => ⟨n + 1, n, 5, true, ()⟩
  resetFn := fun n => (n + 7, 42)

/-- A scripted inner environment whose (single-field) observation changes
once every 2 sub-steps: the observation stays `0` on the first call and
becomes `1` from the second call on; it never terminates. -/
def scriptEnv : InnerEnv ℕ (Fin 1 → ℚ) Unit Unit where
  stepFn := fun n _ => ⟨n + 1, (fun _ => if 2 ≤ n + 1 then 1 else 0), (n : ℚ), false, ()⟩
  resetFn := fun n => (n, fun _ => 0)

/-! ## Theorems -/

/-- Claim C1: for every normalized observation `x`, applying `observation` to
`reverse_observation x` yields `x` again: the forward transform drops the
reconstructed total-power field that `reverse_observation` inserted at index 3
and divides the retained fields by the same per-field maximum-magnitude vector
that `reverse_observation` multiplied by, so normalization is lossless on the
retained fields.  (Proved for all of `ℚ^5`, hence in particular for every `x`
in the image of `observation`.) -/
theorem observation_roundtrip (x : Fin 5 → ℚ) :
    observation (reverse_observation x) = x := by
  funext i
  fin_cases i
  · change x 0 * 50 / 50 = x 0; ring
  · change x 1 * 50 / 50 = x 1; ring
  · change x 2 * 50 / 50 = x 2; ring
  · change x 3 * 100000 / 100000 = x 3; ring
  · change x 4 * 100000 / 100000 = x 4; ring

/-- Claim C7: each row of the batched inverse transform
`reverse_observation_batch_tensor` equals the single-sample
`reverse_observation` applied to that row. -/
theorem batch_inverse_rowwise {B : ℕ} (x : Fin B → Fin 5 → ℚ) (r : Fin B) :
    reverse_observation_batch_tensor x r = reverse_observation (x r) := rfl

/-- Claim C3 (code bug): `action 4 4 0` produces the vector `[-1, -1, -1, -1]`,
but `reverse_action` applied to it returns `none` — the source method body is
`pass`, so it cannot return the index `0` (or any index) as the claim and the
method's own docstring require. -/
theorem reverse_action_unimplemented :
    action 4 4 0 = some [-1, -1, -1, -1] ∧
      reverse_action [-1, -1, -1, -1] = none := by
  refine ⟨?_, rfl⟩
  have hdig : binary_action 4 4 0 = [0, 0, 0, 0] := rfl
  have htab : (action_table 4).getD 0 0 = -1 := by
    show -1 + 2 * ((0 : ℕ) : ℚ) / (((4 : ℕ) : ℚ) - 1) = -1
    norm_num
  rw [action, if_pos (by norm_num : (0 : ℕ) < 4 ^ 4), hdig]
  simp only [List.map_cons, List.map_nil, htab]

/-- The digit loop of `action` produces exactly the base-`num_levels`
mixed-radix digits, least significant first. -/
theorem binary_action_eq (n d : ℕ) :
    ∀ x, binary_action n d x = (List.range d).map fun i => x / n ^ i % n := by
  induction d with
  | zero => intro x; simp [binary_action]
  | succ d ih =>
    intro x
    rw [List.range_succ_eq_map, List.map_cons, List.map_map]
    show x % n :: binary_action n d (x / n) = _
    rw [ih (x / n)]
    congr 1
    · simp
    · have hfun : (fun i => x / n / n ^ i % n) = ((fun i => x / n ^ i % n) ∘ Nat.succ) := by
        funext i
        simp [Function.comp, Nat.div_div_eq_div_mul, ← pow_succ']
      rw [hfun]

/-- Distinct indices below `n ^ d` have distinct digit lists. -/
theorem binary_action_inj (n d : ℕ) :
    ∀ x < n ^ d, ∀ y < n ^ d, binary_action n d x = binary_action n d y → x = y := by
  induction d with
  | zero =>
    intro x hx y hy _
    simp only [pow_zero] at hx hy
    omega
  | succ d ih =>
    intro x hx y hy h
    rcases Nat.eq_zero_or_pos n with hn | hn
    · subst hn
      rw [zero_pow (Nat.succ_ne_zero d)] at hx
      omega
    · have hx' : x / n < n ^ d :=
        Nat.div_lt_of_lt_mul (by rw [← pow_succ']; exact hx)
      have hy' : y / n < n ^ d :=
        Nat.div_lt_of_lt_mul (by rw [← pow_succ']; exact hy)
      simp only [binary_action, List.cons.injEq] at h
      have hdiv := ih (x / n) hx' (y / n) hy' h.2
      have ex := Nat.div_add_mod x n
      have ey := Nat.div_add_mod y n
      rw [← ex, ← ey, hdiv, h.1]

/-- Claim C9: for every `x < num_levels ^ dims`, `action` returns the vector
obtained by mapping the mixed-radix digits of `x` (base `num_levels`, least
significant digit first, i.e. digit `i` is `x / num_levels^i % num_levels`)
through the evenly spaced `num_levels`-point table spanning `[-1, 1]`; the
vector has length `dims`, and distinct indices below `num_levels ^ dims`
decompose to distinct digit lists. -/
theorem quantizer_mixed_radix (n d x : ℕ) (hx : x < n ^ d) :
    action n d x = some ((binary_action n d x).map fun k => (action_table n).getD k 0)
    ∧ binary_action n d x = (List.range d).map (fun i => x / n ^ i % n)
    ∧ (∀ v, action n d x = some v → v.length = d)
    ∧ (∀ k < n, (action_table n).getD k 0 = -1 + 2 * (k : ℚ) / ((n : ℚ) - 1))
    ∧ (∀ y < n ^ d, binary_action n d y = binary_action n d x → y = x) := by
  refine ⟨by simp [action, hx], binary_action_eq n d x, ?_, ?_,
    fun y hy h => binary_action_inj n d y hy x hx h⟩
  · intro v hv
    simp only [action, if_pos hx, Option.some.injEq] at hv
    rw [← hv, List.length_map, binary_action_eq, List.length_map, List.length_range]
  · intro k hk
    have hlen : k < (action_table n).length := by
      rw [action_table, List.length_map, List.length_range]; exact hk
    rw [List.getD_eq_getElem _ _ hlen]
    simp only [action_table, List.getElem_map, List.getElem_range]

/-- Claim C8: an action with a component above `1` or below `-1` makes the
segmenter's `step` fail (the bounds assert raises) instead of returning a
result. -/
theorem segmenter_rejects_out_of_bound {σ Obs ι : Type} {d : ℕ}
    (E : InnerEnv σ Obs ι (Fin d → ℚ)) (s : EPState σ Obs) (a : Fin d → ℚ)
    (h : ∃ i, 1 < a i ∨ a i < -1) :
    (EnergyPlusWrapper_step E s a).2 = none := by
  have hb : ¬ inBounds a := by
    intro hc
    obtain ⟨i, hi⟩ := h
    obtain ⟨h1, h2⟩ := hc i
    rcases hi with hi | hi <;> linarith
  rw [EnergyPlusWrapper_step, if_neg hb]

/-- Witness for C8: the component `2 > 1` is rejected. -/
theorem segmenter_rejects_out_of_bound_witness :
    (EnergyPlusWrapper_step constEnv ⟨0, 5, true, none, none⟩ (fun _ => 2)).2 = none :=
  segmenter_rejects_out_of_bound constEnv ⟨0, 5, true, none, none⟩ (fun _ => 2)
    ⟨0, Or.inl (by norm_num)⟩

/-- Claim C10: the rejection of an out-of-bound action is atomic — the bounds
assert precedes the inner step in the source, so the failed call leaves every
wrapper field and the inner environment untouched. -/
theorem segmenter_reject_atomic {σ Obs ι : Type} {d : ℕ}
    (E : InnerEnv σ Obs ι (Fin d → ℚ)) (s : EPState σ Obs) (a : Fin d → ℚ)
    (h : ¬ inBounds a) :
    EnergyPlusWrapper_step E s a = (s, none) := by
  rw [EnergyPlusWrapper_step, if_neg h]

/-- Witness for C10: a call with component `-3` returns the state unchanged. -/
theorem segmenter_reject_atomic_witness :
    EnergyPlusWrapper_step constEnv ⟨1, 3, false, some 9, some 1⟩ (fun _ => -3) =
      (⟨1, 3, false, some 9, some 1⟩, none) :=
  segmenter_reject_atomic constEnv ⟨1, 3, false, some 9, some 1⟩ (fun _ => -3)
    (by intro hc; have := (hc 0).1; norm_num at this)

/-- Claim C5: whenever the inner step reports `done = true` — no matter the
value of `current_steps` — the segmenter marks `true_done`, tags
`info.true_done = true` and returns `done = true`, and the next `reset`
performs a real inner reset storing the fresh observation. -/
theorem segmenter_true_done_propagation {σ Obs ι : Type} {d : ℕ}
    (E : InnerEnv σ Obs ι (Fin d → ℚ)) (s : EPState σ Obs) (a : Fin d → ℚ)
    (hb : inBounds a) (hd : (E.stepFn s.inner a).done = true) :
    (EnergyPlusWrapper_step E s a).2 =
      some ⟨(E.stepFn s.inner a).obs, (E.stepFn s.inner a).reward, true,
            (E.stepFn s.inner a).info, true⟩
    ∧ (EnergyPlusWrapper_step E s a).1.true_done = true
    ∧ (EnergyPlusWrapper_reset E (EnergyPlusWrapper_step E s a).1).1.inner
        = (E.resetFn (EnergyPlusWrapper_step E s a).1.inner).1
    ∧ (EnergyPlusWrapper_reset E (EnergyPlusWrapper_step E s a).1).1.last_obs
        = some (E.resetFn (EnergyPlusWrapper_step E s a).1.inner).2 := by
  have hstep : EnergyPlusWrapper_step E s a =
      ({ s with inner := (E.stepFn s.inner a).st,
                last_obs := some (E.stepFn s.inner a).obs,
                true_done := true },
       some ⟨(E.stepFn s.inner a).obs, (E.stepFn s.inner a).reward, true,
             (E.stepFn s.inner a).info, true⟩) := by
    rw [EnergyPlusWrapper_step, if_pos hb]
    simp [hd]
  rw [hstep]
  refine ⟨rfl, rfl, ?_, ?_⟩ <;> simp [EnergyPlusWrapper_reset]

/-- Witness for C5: with an always-terminating inner environment, one step
from a mid-segment state returns `done = true`, `true_done = true`, and the
following reset really resets the inner environment. -/
theorem segmenter_true_done_propagation_witness :
    (EnergyPlusWrapper_step doneEnv ⟨0, 5, false, none, some 0⟩ (fun _ => 0)).2 =
        some ⟨0, 5, true, (), true⟩
    ∧ (EnergyPlusWrapper_step doneEnv ⟨0, 5, false, none, some 0⟩ (fun _ => 0)).1.true_done = true
    ∧ (EnergyPlusWrapper_reset doneEnv
        (EnergyPlusWrapper_step doneEnv ⟨0, 5, false, none, some 0⟩ (fun _ => 0)).1).1.inner = 8
    ∧ (EnergyPlusWrapper_reset doneEnv
        (EnergyPlusWrapper_step doneEnv ⟨0, 5, false, none, some 0⟩ (fun _ => 0)).1).1.last_obs
        = some 42 := by
  exact segmenter_true_done_propagation doneEnv ⟨0, 5, false, none, some 0⟩ (fun _ => 0)
    (fun i => ⟨by norm_num, by norm_num⟩) rfl

/-- Claim C6: `reset` zeroes `current_steps` always; it performs a real inner
reset, stores the fresh observation and clears `true_done` exactly when
`true_done` was set; otherwise it leaves every other field (and the inner
environment) untouched and returns the previously stored observation.  A
freshly constructed wrapper has `true_done` set. -/
theorem segmenter_reset_spec {σ Obs ι α : Type}
    (E : InnerEnv σ Obs ι α) (s : EPState σ Obs) :
    (EnergyPlusWrapper_reset E s).1.current_steps = some 0
    ∧ (s.true_done = true →
        (EnergyPlusWrapper_reset E s).1.inner = (E.resetFn s.inner).1
        ∧ (EnergyPlusWrapper_reset E s).1.last_obs = some (E.resetFn s.inner).2
        ∧ (EnergyPlusWrapper_reset E s).2 = some (E.resetFn s.inner).2
        ∧ (EnergyPlusWrapper_reset E s).1.true_done = false)
    ∧ (s.true_done = false →
        (EnergyPlusWrapper_reset E s).1 = { s with current_steps := some 0 }
        ∧ (EnergyPlusWrapper_reset E s).2 = s.last_obs)
    ∧ (∀ (M : ℕ) (σ0 : σ) (st : EPState σ Obs),
        EnergyPlusWrapper_init σ0 M = some st → st.true_done = true) := by
  refine ⟨?_, fun h => ?_, fun h => ?_, fun M σ0 st hst => ?_⟩
  · by_cases htd : s.true_done <;> simp [EnergyPlusWrapper_reset, htd]
  · refine ⟨?_, ?_, ?_, ?_⟩ <;> simp [EnergyPlusWrapper_reset, h]
  · refine ⟨?_, ?_⟩ <;> simp [EnergyPlusWrapper_reset, h]
  · rw [EnergyPlusWrapper_init] at hst
    by_cases hM : 0 < M
    · rw [if_pos hM, Option.some.injEq] at hst
      rw [← hst]
    · rw [if_neg hM] at hst
      exact absurd hst (Option.noConfusion)

/-- Witness for C6: a true-done state really resets (`constEnv` resets `0` to
inner state `7` with observation `42`), a not-true-done state is a no-op
reset keeping observation `3`, and a fresh wrapper has `true_done = true`. -/
theorem segmenter_reset_spec_witness :
    (EnergyPlusWrapper_reset constEnv ⟨0, 5, true, some 3, none⟩).1.current_steps = some 0
    ∧ (EnergyPlusWrapper_reset constEnv ⟨0, 5, true, some 3, none⟩).1.inner = 7
    ∧ (EnergyPlusWrapper_reset constEnv ⟨0, 5, true, some 3, none⟩).1.last_obs = some 42
    ∧ (EnergyPlusWrapper_reset constEnv ⟨0, 5, true, some 3, none⟩).2 = some 42
    ∧ (EnergyPlusWrapper_reset constEnv ⟨0, 5, true, some 3, none⟩).1.true_done = false
    ∧ (EnergyPlusWrapper_reset constEnv ⟨2, 5, false, some 3, none⟩).1 =
        (⟨2, 5, false, some 3, some 0⟩ : EPState ℕ ℕ)
    ∧ (EnergyPlusWrapper_reset constEnv ⟨2, 5, false, some 3, none⟩).2 = some 3
    ∧ ((⟨0, 5, true, none, none⟩ : EPState ℕ ℕ)).true_done = true := by
  have h1 := segmenter_reset_spec constEnv ⟨0, 5, true, some 3, none⟩
  have h2 := segmenter_reset_spec constEnv ⟨2, 5, false, some 3, none⟩
  have t1 := h1.2.1 rfl
  have f2 := h2.2.2.1 rfl
  have hinit := h1.2.2.2 5 0 ⟨0, 5, true, none, none⟩ rfl
  exact ⟨h1.1, t1.1, t1.2.1, t1.2.2.1, t1.2.2.2, f2.1, f2.2, hinit⟩

/-- Witness for C9 at `num_levels = 4`, `dims = 4`, `index = 5`. -/
theorem quantizer_mixed_radix_witness :
    5 < 4 ^ 4 ∧
    (action 4 4 5 = some ((binary_action 4 4 5).map fun k => (action_table 4).getD k 0)
      ∧ binary_action 4 4 5 = (List.range 4).map (fun i => 5 / 4 ^ i % 4)
      ∧ (∀ v, action 4 4 5 = some v → v.length = 4)
      ∧ (∀ k < 4, (action_table 4).getD k 0 = -1 + 2 * (k : ℚ) / (((4 : ℕ) : ℚ) - 1))
      ∧ (∀ y < 4 ^ 4, binary_action 4 4 y = binary_action 4 4 5 → y = 5)) :=
  ⟨by decide, by exact quantizer_mixed_radix 4 4 5 (by decide)⟩

/-- One in-bound, not-truly-done step with `current_steps = c`: outcome of
`EnergyPlusWrapper.step` as a single equation (the synthetic `done` at the
boundary is `decide (c + 1 = max_steps)`). -/
theorem step_not_done {σ Obs ι : Type} {d : ℕ}
    (E : InnerEnv σ Obs ι (Fin d → ℚ)) (s : EPState σ Obs) (a : Fin d → ℚ) (c : ℕ)
    (hb : inBounds a) (hdone : (E.stepFn s.inner a).done = false)
    (hc : s.current_steps = some c) (hle : c + 1 ≤ s.max_steps) :
    EnergyPlusWrapper_step E s a =
      ({ s with inner := (E.stepFn s.inner a).st,
                last_obs := some (E.stepFn s.inner a).obs,
                current_steps := some (c + 1) },
       some ⟨(E.stepFn s.inner a).obs, (E.stepFn s.inner a).reward,
             decide (c + 1 = s.max_steps), (E.stepFn s.inner a).info, false⟩) := by
  rw [EnergyPlusWrapper_step, if_pos hb]
  by_cases hmax : c + 1 = s.max_steps
  · simp [hdone, hc, hmax]
  · have hlt : c + 1 < s.max_steps := by omega
    simp [hdone, hc, hmax, hlt]

/-- Running a list of in-bound actions against an inner environment that
never terminates, starting from `current_steps = c` with enough room:
every call yields an output whose `done` is exactly the synthetic
boundary test and whose `true_done` tag is `false`. -/
theorem run_segment {σ Obs ι : Type} {d : ℕ}
    (E : InnerEnv σ Obs ι (Fin d → ℚ))
    (hE : ∀ st a, (E.stepFn st a).done = false) :
    ∀ (as : List (Fin d → ℚ)) (s : EPState σ Obs) (c : ℕ),
      s.current_steps = some c →
      c + as.length ≤ s.max_steps →
      (∀ a ∈ as, inBounds a) →
      (EnergyPlusWrapper_run E s as).1.true_done = s.true_done
      ∧ (EnergyPlusWrapper_run E s as).1.max_steps = s.max_steps
      ∧ (EnergyPlusWrapper_run E s as).1.current_steps = some (c + as.length)
      ∧ ∀ k, k < as.length →
          ∃ o : EPOut Obs ι, (EnergyPlusWrapper_run E s as).2.get? k = some (some o)
            ∧ o.done = decide (c + k + 1 = s.max_steps) ∧ o.true_done = false := by
  intro as
  induction as with
  | nil =>
    intro s c hc _ _
    refine ⟨rfl, rfl, by simpa using hc, ?_⟩
    intro k hk
    exact absurd hk (by simp)
  | cons a as ih =>
    intro s c hc hle hb
    have hbA : inBounds a := hb a (List.mem_cons_self a as)
    have hdone : (E.stepFn s.inner a).done = false := hE _ _
    have hle1 : c + 1 ≤ s.max_steps := by
      have := hle
      simp only [List.length_cons] at this
      omega
    have hstep := step_not_done E s a c hbA hdone hc hle1
    have hrec := ih
      { s with inner := (E.stepFn s.inner a).st,
               last_obs := some (E.stepFn s.inner a).obs,
               current_steps := some (c + 1) }
      (c + 1) rfl
      (by simp only [List.length_cons] at hle; simpa using (by omega : c + 1 + as.length ≤ s.max_steps))
      (fun a' ha' => hb a' (List.mem_cons_of_mem a ha'))
    obtain ⟨ht, hm, hcs, hout⟩ := hrec
    simp only [EnergyPlusWrapper_run, hstep]
    refine ⟨by simpa using ht, by simpa using hm, ?_, ?_⟩
    · rw [hcs]
      simp only [List.length_cons]
      congr 1
      omega
    · intro k hk
      cases k with
      | zero =>
        refine ⟨⟨(E.stepFn s.inner a).obs, (E.stepFn s.inner a).reward,
                 decide (c + 1 = s.max_steps), (E.stepFn s.inner a).info, false⟩,
                rfl, ?_, rfl⟩
        simp
      | succ k =>
        have hk' : k < as.length := by simpa using hk
        obtain ⟨o, ho, hd, htd⟩ := hout k hk'
        refine ⟨o, ho, ?_, htd⟩
        rw [hd]
        have harith : c + 1 + k + 1 = c + (k + 1) + 1 := by omega
        simp only [harith]

/-- Claim C2: with `max_steps = M > 0` and an inner environment that never
reports true termination, the `M` in-bound step calls following a `reset`
yield `done = false, info.true_done = false` on each of the first `M - 1`
calls and `done = true, info.true_done = false` on the `M`-th (call `k`,
`0`-indexed, yields `done = decide (k + 1 = M)`); the synthetic boundary
leaves the `true_done` flag unset. -/
theorem segmenter_fixed_length_episode {σ Obs ι : Type} {d : ℕ}
    (E : InnerEnv σ Obs ι (Fin d → ℚ))
    (hE : ∀ st a, (E.stepFn st a).done = false)
    (s : EPState σ Obs) (as : List (Fin d → ℚ))
    (hlen : as.length = s.max_steps) (_hpos : 0 < s.max_steps)
    (hb : ∀ a ∈ as, inBounds a) :
    (∀ k, k < as.length →
        ∃ o : EPOut Obs ι,
          (EnergyPlusWrapper_run E (EnergyPlusWrapper_reset E s).1 as).2.get? k
              = some (some o)
            ∧ o.done = decide (k + 1 = s.max_steps) ∧ o.true_done = false)
    ∧ (EnergyPlusWrapper_run E (EnergyPlusWrapper_reset E s).1 as).1.true_done = false := by
  have h0c : (EnergyPlusWrapper_reset E s).1.current_steps = some 0 := by
    by_cases htd : s.true_done <;> simp [EnergyPlusWrapper_reset, htd]
  have h0m : (EnergyPlusWrapper_reset E s).1.max_steps = s.max_steps := by
    by_cases htd : s.true_done <;> simp [EnergyPlusWrapper_reset, htd]
  have h0t : (EnergyPlusWrapper_reset E s).1.true_done = false := by
    by_cases htd : s.true_done <;> simp [EnergyPlusWrapper_reset, htd]
  obtain ⟨ht, hm, hcs, hout⟩ :=
    run_segment E hE as (EnergyPlusWrapper_reset E s).1 0 h0c (by omega) hb
  refine ⟨?_, by rw [ht, h0t]⟩
  intro k hk
  obtain ⟨o, ho, hd, htd⟩ := hout k hk
  refine ⟨o, ho, ?_, htd⟩
  rw [hd, h0m]
  simp

/-- Witness for C2 with `max_steps = 2` and the never-terminating `constEnv`:
the first call returns `done = false`, the second `done = true`, and the
`true_done` tag and flag stay `false`. -/
theorem segmenter_fixed_length_episode_witness :
    (∀ k, k < (List.replicate 2 (fun _ => 0 : Fin 1 → ℚ)).length →
        ∃ o : EPOut ℕ Unit,
          (EnergyPlusWrapper_run constEnv
              (EnergyPlusWrapper_reset constEnv ⟨0, 2, true, none, none⟩).1
              (List.replicate 2 (fun _ => 0 : Fin 1 → ℚ))).2.get? k
              = some (some o)
            ∧ o.done = decide (k + 1 = 2) ∧ o.true_done = false)
    ∧ (EnergyPlusWrapper_run constEnv
        (EnergyPlusWrapper_reset constEnv ⟨0, 2, true, none, none⟩).1
        (List.replicate 2 (fun _ => 0 : Fin 1 → ℚ))).1.true_done = false := by
  exact segmenter_fixed_length_episode constEnv (fun _ _ => rfl)
    ⟨0, 2, true, none, none⟩ (List.replicate 2 (fun _ => 0 : Fin 1 → ℚ)) rfl (by norm_num)
    (by
      intro a ha
      rw [List.eq_of_mem_replicate ha]
      intro i
      exact ⟨by norm_num, by norm_num⟩)

/-- When the repeat condition fails (observation prefix changed or inner
`done`), the loop exits immediately for any fuel, averaging and clearing the
window. -/
theorem RepeatAction_loop_exit {σ ι α : Type} {m : ℕ}
    (E : InnerEnv σ (Fin m → ℚ) ι α) (a : α) (b : Fin m → ℚ)
    (fuel : ℕ) (st : σ) (obs : Fin m → ℚ) (reward : ℚ) (done : Bool) (info : ι)
    (obsAcc : List (Fin m → ℚ)) (rewAcc : List ℚ)
    (h : ¬ (first3Eq obs b ∧ done = false)) :
    RepeatAction_loop E a b fuel st obs reward done info obsAcc rewAcc =
      some (⟨st, some obs, [], []⟩, (vecMean obsAcc, listMean rewAcc, done, info)) := by
  cases fuel <;> simp only [RepeatAction_loop, if_neg h]

/-- When the repeat condition holds, the loop issues one more inner step and
recurses with one unit of fuel less. -/
theorem RepeatAction_loop_cont {σ ι α : Type} {m : ℕ}
    (E : InnerEnv σ (Fin m → ℚ) ι α) (a : α) (b : Fin m → ℚ)
    (fuel : ℕ) (st : σ) (obs : Fin m → ℚ) (reward : ℚ) (done : Bool) (info : ι)
    (obsAcc : List (Fin m → ℚ)) (rewAcc : List ℚ)
    (h : first3Eq obs b ∧ done = false) :
    RepeatAction_loop E a b (fuel + 1) st obs reward done info obsAcc rewAcc =
      RepeatAction_loop E a b fuel (E.stepFn st a).st (E.stepFn st a).obs
        (E.stepFn st a).reward (E.stepFn st a).done (E.stepFn st a).info
        (obsAcc ++ [(E.stepFn st a).obs]) (rewAcc ++ [(E.stepFn st a).reward]) := by
  simp only [RepeatAction_loop, if_pos h]

/-- Invariant of the repeat loop along a scripted window of `K` sub-steps:
entering after `t` calls (`1 ≤ t ≤ K`) with the matching accumulators and at
least `K - t` fuel, the loop finishes with the full window averaged. -/
theorem RepeatAction_loop_complete {σ ι α : Type} {m : ℕ}
    (E : InnerEnv σ (Fin m → ℚ) ι α) (a : α) (b : Fin m → ℚ) (σ0 : σ) (K : ℕ)
    (heq : ∀ i < K - 1, first3Eq (subObs E a σ0 i) b)
    (hneq : ¬ first3Eq (subObs E a σ0 (K - 1)) b)
    (hdone : ∀ i < K, subDone E a σ0 i = false) :
    ∀ (n t fuel : ℕ), 1 ≤ t → t + n = K → n ≤ fuel →
      RepeatAction_loop E a b fuel (traj E a σ0 t) (subObs E a σ0 (t - 1))
          (subRew E a σ0 (t - 1)) (subDone E a σ0 (t - 1)) (subInfo E a σ0 (t - 1))
          ((List.range t).map (subObs E a σ0)) ((List.range t).map (subRew E a σ0)) =
        some (⟨traj E a σ0 K, some (subObs E a σ0 (K - 1)), [], []⟩,
          (vecMean ((List.range K).map (subObs E a σ0)),
           listMean ((List.range K).map (subRew E a σ0)),
           subDone E a σ0 (K - 1), subInfo E a σ0 (K - 1))) := by
  intro n
  induction n with
  | zero =>
    intro t fuel h1 htK _
    have ht : t = K := by omega
    subst ht
    exact RepeatAction_loop_exit E a b fuel _ _ _ _ _ _ _ (fun hc => hneq hc.1)
  | succ n ih =>
    intro t fuel h1 htK hfuel
    have hcond : first3Eq (subObs E a σ0 (t - 1)) b ∧ subDone E a σ0 (t - 1) = false :=
      ⟨heq (t - 1) (by omega), hdone (t - 1) (by omega)⟩
    cases fuel with
    | zero => omega
    | succ fuel =>
      rw [RepeatAction_loop_cont E a b fuel _ _ _ _ _ _ _ hcond]
      have hobsacc : (List.range t).map (subObs E a σ0)
            ++ [(E.stepFn (traj E a σ0 t) a).obs]
          = (List.range (t + 1)).map (subObs E a σ0) := by
        rw [List.range_succ, List.map_append]
        rfl
      have hrewacc : (List.range t).map (subRew E a σ0)
            ++ [(E.stepFn (traj E a σ0 t) a).reward]
          = (List.range (t + 1)).map (subRew E a σ0) := by
        rw [List.range_succ, List.map_append]
        rfl
      rw [hobsacc, hrewacc]
      exact ih (t + 1) fuel (by omega) (by omega) (by omega)

/-- Claim C4: against an inner environment whose first observation fields
match the stored baseline `b` for the first `K - 1` sub-steps, change at the
`K`-th, and which does not terminate within the window, one
`RepeatAction.step` call issues exactly `K` inner steps with the same action
(ending in inner state `traj K` with a `K`-element window), and returns the
pointwise mean of the `K` observations, the arithmetic mean of the `K`
rewards, and the `done` and `info` of the final sub-step verbatim. -/
theorem aggregator_window_mean {σ ι α : Type} {m : ℕ}
    (E : InnerEnv σ (Fin m → ℚ) ι α) (s : RAState σ m) (a : α) (b : Fin m → ℚ)
    (K fuel : ℕ)
    (hlast : s.last_obs = some b) (hobs : s.obs = []) (hrew : s.reward = [])
    (hK : 1 ≤ K)
    (heq : ∀ i < K - 1, first3Eq (subObs E a s.inner i) b)
    (hneq : ¬ first3Eq (subObs E a s.inner (K - 1)) b)
    (hdone : ∀ i < K, subDone E a s.inner i = false)
    (hfuel : K - 1 ≤ fuel) :
    RepeatAction_step E fuel s a =
      some (⟨traj E a s.inner K, some (subObs E a s.inner (K - 1)), [], []⟩,
        (vecMean ((List.range K).map (subObs E a s.inner)),
         listMean ((List.range K).map (subRew E a s.inner)),
         subDone E a s.inner (K - 1), subInfo E a s.inner (K - 1))) := by
  have hmain := RepeatAction_loop_complete E a b s.inner K heq hneq hdone
    (K - 1) 1 fuel le_rfl (by omega) hfuel
  rw [RepeatAction_step, hlast]
  simp only [hobs, hrew, List.nil_append]
  exact hmain

/-- Witness for C4 with `scriptEnv` (`K = 2`): starting from inner state `0`
with baseline `fun _ => 0`, one aggregator step issues exactly two inner
steps and averages the two-sample window. -/
theorem aggregator_window_mean_witness :
    RepeatAction_step scriptEnv 1 ⟨0, some (fun _ => 0), [], []⟩ () =
      some (⟨traj scriptEnv () 0 2, some (subObs scriptEnv () 0 1), [], []⟩,
        (vecMean ((List.range 2).map (subObs scriptEnv () 0)),
         listMean ((List.range 2).map (subRew scriptEnv () 0)),
         subDone scriptEnv () 0 1, subInfo scriptEnv () 0 1)) := by
  exact aggregator_window_mean scriptEnv ⟨0, some (fun _ => 0), [], []⟩ () (fun _ => 0) 2 1
    rfl rfl rfl (by norm_num)
    (by
      intro i hi
      interval_cases i
      intro j hj
      norm_num [subObs, traj, scriptEnv])
    (by
      intro hc
      have := hc 0 (by norm_num)
      norm_num [subObs, traj, scriptEnv] at this)
    (by
      intro i hi
      interval_cases i <;> rfl)
    le_rfl
